import Mathlib

/-!
Verification of `etsegtools/segmentation.py` (ETSegTools).

Modelling conventions.

* Volumes: numpy 3-D integer arrays are modelled as flat lists of voxel
  values (`List Int`).  Every array operation in the source is elementwise
  (`==`, `astype`, `> 0`, `* 255`), so the 3-D shape plays no role and a
  fixed flattening order is faithful.
* Python dicts preserve insertion order; `label_dict` is an association
  list with unique keys, with `dictInsert` giving the overwrite semantics
  of `d[k] = v`.
* Pixel sizes are Python floats holding exact user-supplied values; they
  are never subject to rounding inside this module (only stored, copied
  and compared), so `Rat` carries them exactly.
* Fallible code returns `Except PyErr`; an in-place method on a
  `Segmentation` becomes a function from the receiver to
  `Except (PyErr × Segmentation) Segmentation`, where the error case also
  carries the state of the receiver at the moment the exception escaped.
* The `qvox` package is an external collaborator (spec section 1 places it
  out of scope).  The transform primitives (`qvox.sampling.rescale`,
  `grow`, `shrink`, `qvox.morphology.gaussian_smooth`) are parameters of
  the methods that call them, so theorems about those methods hold for
  every possible behaviour of the primitives.  The one external function
  whose behaviour the claims themselves describe,
  `qvox.utils.combine_binary_arrays`, is modelled from the spec (see its
  doc comment).
-/

/-- Python exceptions that the modelled code can raise. -/
inductive PyErr where
  | assertionError (msg : String)
  | keyError (key : String)
  | valueError (msg : String)
deriving Repr, DecidableEq

/-- Python `k in d.keys()` for an insertion-ordered dict. -/
def hasKey (d : List (String × Int)) (k : String) : Bool :=
  d.any (fun p => p.1 = k)

/-- Python `d[k]` as an `Option`; a missing key raises `KeyError` at the
call site. -/
def dictGet (d : List (String × Int)) (k : String) : Option Int :=
  (d.find? (fun p => p.1 = k)).map (fun p => p.2)

/-- Python `d[k] = v`: overwrite in place when the key exists, otherwise
append at the end (insertion order). -/
def dictInsert (d : List (String × Int)) (k : String) (v : Int) : List (String × Int) :=
  if hasKey d k then d.map (fun p => if p.1 = k then (k, v) else p) else d ++ [(k, v)]

/-- Python `d.keys()` in insertion order. -/
def dictKeys (d : List (String × Int)) : List String :=
  d.map (fun p => p.1)

/-- `Segmentation.__init__`: the quantized volume, the name-to-ID map and
the pixel size (constructor default `1`). -/
structure Segmentation where
  data : List Int
  label_dict : List (String × Int)
  pixsize : Rat
deriving Repr, DecidableEq

/-- Truthiness of a Python 2-tuple: a non-empty tuple is always truthy,
whatever its components hold. -/
def tupleTruthy (_t : Bool × String) : Bool :=
  true

/-- `Segmentation.get_binary_array`.  The source guard
`assert(label in self.label_dict.keys(), f"...")` hands `assert` the
2-tuple `(condition, message)`; a non-empty tuple is truthy, so the
documented `AssertionError` can never fire, and a missing label instead
surfaces as a bare `KeyError` from the subsequent `self.label_dict[label]`
subscript.  On a present label the result is
`(self.data == self.label_dict[label]).astype(int)`. -/
def Segmentation.get_binary_array (s : Segmentation) (label : String) : Except PyErr (List Int) :=
  let assertArg : Bool × String :=
    (hasKey s.label_dict label,
      label ++ " not found among labels for this segmentation. The labels are "
        ++ String.intercalate ", " (dictKeys s.label_dict))
  if tupleTruthy assertArg = false then
    Except.error (PyErr.assertionError assertArg.2)
  else
    match dictGet s.label_dict label with
    | some lid => Except.ok (s.data.map (fun v => if v = lid then (1 : Int) else 0))
    | none => Except.error (PyErr.keyError label)

/-- The persisted MRC container as `write_mrcfile` fills it: a voxel
spacing, the volume (written with `astype(float)`; label IDs are small
integers, exactly representable in float64, so the stored voxel values
are numerically unchanged), and the label names kept in the extended
header. -/
structure MrcFile where
  voxel_size : Rat
  data : List Int
  extended_header : List String
deriving Repr, DecidableEq

/-- `Segmentation.write_mrcfile`: stores `self.pixsize` as the voxel size,
the volume cast to float, and `self.label_dict.keys()` in the extended
header. -/
def Segmentation.write_mrcfile (s : Segmentation) : MrcFile :=
  { voxel_size := s.pixsize
    data := s.data
    extended_header := dictKeys s.label_dict }

/-- The dict comprehension of `read_mrcfile`,
`{val: i for i, val in enumerate(label_list)}`, built by successive dict
insertions with the running index as value. -/
def enumDictFrom (i : Nat) (ll : List String) (d : List (String × Int)) : List (String × Int) :=
  match ll with
  | [] => d
  | l :: rest => enumDictFrom (i + 1) rest (dictInsert d l (i : Int))

/-- `read_mrcfile`: takes the data array from the file, reads the voxel
size into a local variable that is never used again, defaults the label
list to the stored extended header, enumerates it from `0`, and calls
`Segmentation(data, label_dict)` — leaving `pixsize` at the constructor
default `1`. -/
def read_mrcfile (mrc : MrcFile) (label_list : Option (List String)) : Segmentation :=
  let _pixsize : Rat := mrc.voxel_size
  let ll : List String := label_list.getD mrc.extended_header
  { data := mrc.data
    label_dict := enumDictFrom 0 ll []
    pixsize := 1 }

/-- Signature of the external `qvox.sampling.rescale`:
`(data, old_pixsize, new_pixsize, threshold) -> data`, possibly raising. -/
abbrev QRescale := List Int → Rat → Rat → Rat → Except PyErr (List Int)

/-- Signature of the external `qvox.morphology.grow` and `shrink`:
`(data, num_iterations) -> data`, possibly raising. -/
abbrev QMorph := List Int → Int → Except PyErr (List Int)

/-- Signature of the external `qvox.morphology.gaussian_smooth`:
`(data, sigma, threshold) -> data`, possibly raising. -/
abbrev QGauss := List Int → Rat → Rat → Except PyErr (List Int)

/-- `Segmentation.rescale`: `self.data = qvox.sampling.rescale(self.data,
self.pixsize, new_pixsize, threshold=thresh)` followed by
`self.pixsize = new_pixsize`.  No parameter is inspected before the
external call; if that call raises, neither field has been assigned yet. -/
def Segmentation.rescale (qrescale : QRescale) (s : Segmentation)
    (new_pixsize thresh : Rat) : Except (PyErr × Segmentation) Segmentation :=
  match qrescale s.data s.pixsize new_pixsize thresh with
  | Except.error e => Except.error (e, s)
  | Except.ok nd => Except.ok { s with data := nd, pixsize := new_pixsize }

/-- `Segmentation.morphological_smooth`: `new_data = grow(self.data, iter)`;
`new_data = shrink(new_data, iter)`; `self.data = new_data`.  The two
external calls only assign a local, so a raise leaves the receiver
untouched. -/
def Segmentation.morphological_smooth (grow shrink : QMorph) (s : Segmentation)
    (iter : Int) : Except (PyErr × Segmentation) Segmentation :=
  match grow s.data iter with
  | Except.error e => Except.error (e, s)
  | Except.ok nd1 =>
    match shrink nd1 iter with
    | Except.error e => Except.error (e, s)
    | Except.ok nd2 => Except.ok { s with data := nd2 }

/-- `Segmentation.gaussian_smooth`: `new_data =
gaussian_smooth(self.data, sigma=sigma, threshold=thresh)`;
`self.data = new_data`. -/
def Segmentation.gaussian_smooth (qgauss : QGauss) (s : Segmentation)
    (sigma thresh : Rat) : Except (PyErr × Segmentation) Segmentation :=
  match qgauss s.data sigma thresh with
  | Except.error e => Except.error (e, s)
  | Except.ok nd => Except.ok { s with data := nd }

/-- The state of the receiver after an in-place method returns or raises. -/
def postSeg (r : Except (PyErr × Segmentation) Segmentation) : Segmentation :=
  match r with
  | Except.ok t => t
  | Except.error p => p.2

/-- Modelled from the spec: `qvox.utils.combine_binary_arrays` lives in the
external `qvox` package (not under this repository), and spec section 4.1
specifies it: merge an ordered sequence of same-shape binary masks into one
quantized volume in which a voxel claimed by mask `i` receives ID `i + 1`,
the last claiming mask in iteration order winning on overlap, and an
unclaimed voxel receives `0`.  `combineFrom sIdx ms acc` processes the
masks `ms` whose first element carries ID `sIdx + 1`, overwriting the
accumulator wherever a mask is non-zero. -/
def combineFrom (sIdx : Nat) (ms : List (List Int)) (acc : List Int) : List Int :=
  match ms with
  | [] => acc
  | m :: rest =>
    combineFrom (sIdx + 1) rest
      (List.zipWith (fun a v => if v = 0 then a else ((sIdx : Int) + 1)) acc m)

/-- Modelled from the spec: `qvox.utils.combine_binary_arrays` applied to
the whole mask list, starting from an all-background volume of the first
mask's shape. -/
def combine_binary_arrays (masks : List (List Int)) : List Int :=
  match masks with
  | [] => []
  | m :: _ => combineFrom 0 masks (List.replicate m.length 0)

/-- The loop body of `read_dragonfly`: for each label, load
`<label>.tiff` from the folder, execute `label_dict[label] =
len(label_dict) + 1`, and append the quantized mask
`(label_array > 0).astype(int)`.  The folder is modelled as the map from a
label name to the pixel values of the tiff stored under that name. -/
def dragonLoop (folder : String → List Int) (labels : List String)
    (d : List (String × Int)) (arrs : List (List Int)) :
    List (String × Int) × List (List Int) :=
  match labels with
  | [] => (d, arrs)
  | l :: rest =>
    dragonLoop folder rest (dictInsert d l ((d.length : Int) + 1))
      (arrs ++ [(folder l).map (fun v => if v > 0 then (1 : Int) else 0)])

/-- `read_dragonfly`: run the loop over the requested labels, combine the
quantized masks with `qvox.utils.combine_binary_arrays`, and build the
`Segmentation` with the supplied pixel size. -/
def read_dragonfly (folder : String → List Int) (labels : List String)
    (pixsize : Rat) : Segmentation :=
  let st := dragonLoop folder labels [] []
  { data := combine_binary_arrays st.2
    label_dict := st.1
    pixsize := pixsize }

/-- The loop of `write_dragonfly` (with `also_write_mrc = False`): for each
key of `label_dict` in order, extract its binary mask, cast it to `uint8`
(the values `0` and `1` are unchanged) and save `binary_array * 255` as
`<label>.tiff`.  The files written are returned as an ordered association
list from file label to pixel values. -/
def writeLoop (s : Segmentation) (ks : List String) : Except PyErr (List (String × List Int)) :=
  match ks with
  | [] => Except.ok []
  | k :: rest =>
    match Segmentation.get_binary_array s k with
    | Except.error e => Except.error e
    | Except.ok b =>
      match writeLoop s rest with
      | Except.error e => Except.error e
      | Except.ok fs => Except.ok ((k, b.map (fun v => v * 255)) :: fs)

/-- `Segmentation.write_dragonfly` with `also_write_mrc = False`. -/
def Segmentation.write_dragonfly (s : Segmentation) : Except PyErr (List (String × List Int)) :=
  writeLoop s (dictKeys s.label_dict)

/-- Reading a written mask folder back: `io.imread` of `<label>.tiff`
returns the stored pixel values (an absent file is irrelevant to the
theorems, which only read labels that were written). -/
def fileFun (files : List (String × List Int)) (l : String) : List Int :=
  ((files.find? (fun p => p.1 = l)).map (fun p => p.2)).getD []

/-- The pointwise residue of `combineFrom` at one voxel: fold the per-mask
values at that voxel, a non-zero value overwriting the accumulator with
its mask's ID. -/
def pointFold (sIdx : Nat) (vs : List Int) (a : Int) : Int :=
  match vs with
  | [] => a
  | v :: rest => pointFold (sIdx + 1) rest (if v = 0 then a else ((sIdx : Int) + 1))

/-- The positional label dictionary `name i ↦ start + i + 1` that the
`read_dragonfly` loop produces on distinct labels. -/
def posDict (start : Nat) (ls : List String) : List (String × Int) :=
  match ls with
  | [] => []
  | l :: rest => (l, (start : Int) + 1) :: posDict (start + 1) rest

/-- Success test for an `Except` value. -/
def okB {ε α : Type} (r : Except ε α) : Bool :=
  match r with
  | Except.ok _ => true
  | Except.error _ => false

/-- A one-label segmentation with pixel size `2`, exercising the quantized
round trip. -/
def segC1 : Segmentation :=
  { data := [0, 1, 1], label_dict := [("a", 1)], pixsize := 2 }

/-- A quantized file whose stored name list is `["a", "b"]`. -/
def mrcC2 : MrcFile :=
  { voxel_size := 3 / 2, data := [0, 1, 2], extended_header := ["a", "b"] }

/-- The two-label segmentation of the spec scenarios. -/
def segC3 : Segmentation :=
  { data := [1, 1, 2, 0], label_dict := [("a", 1), ("b", 2)], pixsize := 1 }

/-- A behaviour of the external resampler that accepts every call and
returns the volume unchanged. -/
def qvoxOkId : QRescale :=
  fun d _ _ _ => Except.ok d

/-- A behaviour of the external transform primitives that raises on every
call. -/
def qvoxBoom : QRescale :=
  fun _ _ _ _ => Except.error (PyErr.valueError "boom")

/-- A raising behaviour for `grow` and `shrink`. -/
def qmorphBoom : QMorph :=
  fun _ _ => Except.error (PyErr.valueError "boom")

/-- A raising behaviour for the external `gaussian_smooth`. -/
def qgaussBoom : QGauss :=
  fun _ _ _ => Except.error (PyErr.valueError "boom")

/-- A two-label segmentation used to evaluate mask extraction. -/
def segC4 : Segmentation :=
  { data := [1, 2, 0, 1], label_dict := [("a", 1), ("b", 2)], pixsize := 1 }

/-- A one-label segmentation on which the resampler is invoked with
invalid parameters. -/
def segC6 : Segmentation :=
  { data := [0, 1], label_dict := [("a", 1)], pixsize := 1 }

/-- The mask folder of the spec scenario: two non-overlapping 4 x 4 x 2
binary masks of 32 voxels, "a" covering the top half and "b" the bottom
half. -/
def folderC7 (l : String) : List Int :=
  if l = "a" then List.replicate 16 1 ++ List.replicate 16 0
  else if l = "b" then List.replicate 16 0 ++ List.replicate 16 1
  else []

/-- A segmentation with the positional label dictionary produced by
`read_dragonfly`, used to evaluate the mask-folder round trip. -/
def segC8 : Segmentation :=
  { data := [1, 1, 2, 0], label_dict := [("a", 1), ("b", 2)], pixsize := 1 }

/-- The files `write_dragonfly` produces for `segC8`. -/
def filesC8 : List (String × List Int) :=
  [("a", [255, 255, 0, 0]), ("b", [0, 0, 255, 0])]

/-- C5: for every MRC file and optional label list, the `Segmentation`
returned by `read_mrcfile` has `pixsize` equal to the constructor default
`1`: the voxel spacing read from the file is never passed on. -/
theorem read_mrcfile_pixsize_default (mrc : MrcFile) (ll : Option (List String)) :
    (read_mrcfile mrc ll).pixsize = 1 :=
  rfl

/-- C1 (evaluation at the failing input): writing `segC1` (pixel size `2`,
labels `a ↦ 1`) with `write_mrcfile` and reading it back with
`read_mrcfile` preserves the volume and the name order, but resets the
pixel size to `1` and reassigns the label IDs from `0`, so the round trip
is not the identity on voxel size or on the name-to-ID map. -/
theorem quantized_roundtrip_bug_eval :
    (read_mrcfile (Segmentation.write_mrcfile segC1) none).data = segC1.data
    ∧ (read_mrcfile (Segmentation.write_mrcfile segC1) none).pixsize = 1
    ∧ segC1.pixsize = 2
    ∧ (read_mrcfile (Segmentation.write_mrcfile segC1) none).label_dict = [("a", 0)]
    ∧ segC1.label_dict = [("a", 1)] :=
  ⟨rfl, rfl, rfl, rfl, rfl⟩

/-- C2 (evaluation at the failing input): `read_mrcfile` enumerates the
label names from `0`, so the name at position `i` receives ID `i`, not
`i + 1` — both when the list comes from the stored extended header and
when the caller supplies it. -/
theorem read_mrcfile_id_offset_bug_eval :
    (read_mrcfile mrcC2 none).label_dict = [("a", 0), ("b", 1)]
    ∧ (read_mrcfile mrcC2 (some ["x", "y"])).label_dict = [("x", 0), ("y", 1)] :=
  ⟨rfl, rfl⟩

/-- C3 (evaluation at the failing input): requesting the mask for the
absent label "c" on the two-label segmentation does not fail with the
documented assertion listing the known labels — the `assert` receives an
always-truthy 2-tuple — but with a bare `KeyError` naming only the missing
key. -/
theorem missing_label_keyerror_eval :
    Segmentation.get_binary_array segC3 "c" = Except.error (PyErr.keyError "c") :=
  rfl

/-- C4: for every segmentation and every label present in its label map
with ID `lid`, `get_binary_array` succeeds and the returned volume holds
`1` exactly at the voxels where the volume equals `lid` and `0` at every
other voxel (position by position, with the same length). -/
theorem get_binary_array_mask_spec (s : Segmentation) (label : String) (lid : Int)
    (h : dictGet s.label_dict label = some lid) (i : Nat) :
    (Segmentation.get_binary_array s label).map (fun b => b.get? i) =
      Except.ok ((s.data.get? i).map (fun v => if v = lid then (1 : Int) else 0)) := by
  unfold Segmentation.get_binary_array
  simp [tupleTruthy, h, Except.map, List.getElem?_map]

/-- Witness for C4 at `segC4`, label "a" (ID `1`), position `1`: the data
there is `2`, so the mask holds `0`. -/
theorem get_binary_array_mask_spec_witness :
    dictGet segC4.label_dict "a" = some 1
    ∧ (Segmentation.get_binary_array segC4 "a").map (fun b => b.get? 1) =
        Except.ok (some 0) :=
  ⟨rfl, get_binary_array_mask_spec segC4 "a" 1 rfl 1⟩

/-- C6 (counterexample): with a resampler behaviour that accepts the call,
`rescale` invoked with target voxel size `-1 ≤ 0` and threshold `2`
outside `(0, 1)` does not fail — it completes and installs the
non-positive pixel size. -/
theorem rescale_validation_counterexample :
    Segmentation.rescale qvoxOkId segC6 (-1) 2 =
      Except.ok { data := [0, 1], label_dict := [("a", 1)], pixsize := -1 } :=
  rfl

/-- C6 (amended): `rescale` performs no parameter validation of its own.
Even when the target voxel size is non-positive or the threshold lies
outside `(0, 1)`, whenever the external resampler accepts the forwarded
call the method completes and sets the pixel size to the invalid target;
a failure can only originate in the external resampler. -/
theorem rescale_no_validation (q : QRescale) (s : Segmentation) (np th : Rat)
    (hbad : np ≤ 0 ∨ th ≤ 0 ∨ 1 ≤ th)
    (hq : okB (q s.data s.pixsize np th) = true) :
    okB (Segmentation.rescale q s np th) = true
    ∧ (postSeg (Segmentation.rescale q s np th)).pixsize = np := by
  unfold Segmentation.rescale
  cases hc : q s.data s.pixsize np th with
  | error e => rw [hc] at hq; exact absurd hq (by simp [okB])
  | ok nd => exact ⟨rfl, rfl⟩

/-- Witness for C6 at `segC6`, target voxel size `-1`, threshold `2`, with
the accepting resampler behaviour. -/
theorem rescale_no_validation_witness :
    (((-1 : Rat) ≤ 0 ∨ (2 : Rat) ≤ 0 ∨ (1 : Rat) ≤ 2)
      ∧ okB (qvoxOkId segC6.data segC6.pixsize (-1) 2) = true)
    ∧ okB (Segmentation.rescale qvoxOkId segC6 (-1) 2) = true
    ∧ (postSeg (Segmentation.rescale qvoxOkId segC6 (-1) 2)).pixsize = -1 := by
  have hbad : (-1 : Rat) ≤ 0 ∨ (2 : Rat) ≤ 0 ∨ (1 : Rat) ≤ 2 := Or.inl (by norm_num)
  exact ⟨⟨hbad, rfl⟩, rescale_no_validation qvoxOkId segC6 (-1) 2 hbad rfl⟩

/-- C9: every transform operation — `rescale`, `morphological_smooth`,
`gaussian_smooth` — leaves the label map unchanged, for every behaviour of
the external primitives, every parameter choice and both on success and on
failure; only the volume and the voxel size can change. -/
theorem transforms_preserve_label_dict (qr : QRescale) (grow shrink : QMorph)
    (qg : QGauss) (s : Segmentation) (np th sigma gth : Rat) (it : Int) :
    (postSeg (Segmentation.rescale qr s np th)).label_dict = s.label_dict
    ∧ (postSeg (Segmentation.morphological_smooth grow shrink s it)).label_dict = s.label_dict
    ∧ (postSeg (Segmentation.gaussian_smooth qg s sigma gth)).label_dict = s.label_dict := by
  refine ⟨?_, ?_, ?_⟩
  · unfold Segmentation.rescale
    cases qr s.data s.pixsize np th <;> rfl
  · unfold Segmentation.morphological_smooth
    cases grow s.data it with
    | error e => rfl
    | ok nd1 =>
      dsimp only
      cases shrink nd1 it <;> rfl
  · unfold Segmentation.gaussian_smooth
    cases qg s.data sigma gth <;> rfl

/-- C10: each transform operation is atomic: if it raises, the
segmentation is returned exactly as it was before the call, and if it
completes, the volume has been fully replaced by the external primitive's
output (with the voxel size updated only by `rescale`). -/
theorem transforms_atomic (qr : QRescale) (grow shrink : QMorph) (qg : QGauss)
    (s : Segmentation) (np th sigma gth : Rat) (it : Int) (e : PyErr) (t : Segmentation) :
    (Segmentation.rescale qr s np th = Except.error (e, t) → t = s)
    ∧ (Segmentation.rescale qr s np th = Except.ok t →
        qr s.data s.pixsize np th = Except.ok t.data ∧ t.pixsize = np)
    ∧ (Segmentation.morphological_smooth grow shrink s it = Except.error (e, t) → t = s)
    ∧ (Segmentation.morphological_smooth grow shrink s it = Except.ok t →
        (grow s.data it).bind (fun d => shrink d it) = Except.ok t.data
          ∧ t.pixsize = s.pixsize)
    ∧ (Segmentation.gaussian_smooth qg s sigma gth = Except.error (e, t) → t = s)
    ∧ (Segmentation.gaussian_smooth qg s sigma gth = Except.ok t →
        qg s.data sigma gth = Except.ok t.data ∧ t.pixsize = s.pixsize) := by
  unfold Segmentation.rescale Segmentation.morphological_smooth Segmentation.gaussian_smooth
  refine ⟨?_, ?_, ?_, ?_, ?_, ?_⟩
  · cases hc : qr s.data s.pixsize np th <;> intro h <;> simp_all
  · cases hc : qr s.data s.pixsize np th with
    | error e1 => intro h; simp_all
    | ok nd => intro h; injection h with h1; subst h1; exact ⟨rfl, rfl⟩
  · cases h1 : grow s.data it with
    | error e1 => intro h; simp_all
    | ok nd1 =>
      dsimp only
      cases h2 : shrink nd1 it <;> intro h <;> simp_all
  · cases h1 : grow s.data it with
    | error e1 => intro h; simp_all
    | ok nd1 =>
      dsimp only
      cases h2 : shrink nd1 it with
      | error e2 => intro h; simp_all
      | ok nd2 =>
        intro h; injection h with hh; subst hh
        exact ⟨by simp [h1, h2, Except.bind], rfl⟩
  · cases hc : qg s.data sigma gth <;> intro h <;> simp_all
  · cases hc : qg s.data sigma gth with
    | error e1 => intro h; simp_all
    | ok nd => intro h; injection h with h1; subst h1; exact ⟨rfl, rfl⟩

/-- Witness for C10 with the raising primitive behaviours on `segC3`: each
operation reports the raised error with the segmentation unchanged. -/
theorem transforms_atomic_witness :
    (Segmentation.rescale qvoxBoom segC3 2 (1 / 2) =
        Except.error (PyErr.valueError "boom", segC3) → segC3 = segC3)
    ∧ (Segmentation.rescale qvoxBoom segC3 2 (1 / 2) = Except.ok segC3 →
        qvoxBoom segC3.data segC3.pixsize 2 (1 / 2) = Except.ok segC3.data
          ∧ segC3.pixsize = 2)
    ∧ (Segmentation.morphological_smooth qmorphBoom qmorphBoom segC3 2 =
        Except.error (PyErr.valueError "boom", segC3) → segC3 = segC3)
    ∧ (Segmentation.morphological_smooth qmorphBoom qmorphBoom segC3 2 = Except.ok segC3 →
        (qmorphBoom segC3.data 2).bind (fun d => qmorphBoom d 2) = Except.ok segC3.data
          ∧ segC3.pixsize = segC3.pixsize)
    ∧ (Segmentation.gaussian_smooth qgaussBoom segC3 (5 / 2) (1 / 2) =
        Except.error (PyErr.valueError "boom", segC3) → segC3 = segC3)
    ∧ (Segmentation.gaussian_smooth qgaussBoom segC3 (5 / 2) (1 / 2) = Except.ok segC3 →
        qgaussBoom segC3.data (5 / 2) (1 / 2) = Except.ok segC3.data
          ∧ segC3.pixsize = segC3.pixsize) :=
  transforms_atomic qvoxBoom qmorphBoom qmorphBoom qgaussBoom segC3 2 (1 / 2) (5 / 2) (1 / 2) 2
    (PyErr.valueError "boom") segC3

/-- `combineFrom` keeps the accumulator's length when all masks share it. -/
theorem combineFrom_length (ms : List (List Int)) : ∀ (sIdx : Nat) (acc : List Int),
    (∀ m ∈ ms, m.length = acc.length) → (combineFrom sIdx ms acc).length = acc.length := by
  induction ms with
  | nil => intro sIdx acc _; rfl
  | cons m rest ih =>
    intro sIdx acc hlen
    have hm : m.length = acc.length := hlen m (List.mem_cons_self m rest)
    have hzl : (List.zipWith (fun a v => if v = 0 then a else ((sIdx : Int) + 1)) acc m).length
        = acc.length := by
      rw [List.length_zipWith, hm, Nat.min_self]
    rw [combineFrom, ih (sIdx + 1) _ ?_, hzl]
    intro m' hm'
    rw [hzl]
    exact hlen m' (List.mem_cons_of_mem m hm')

/-- Pointwise view of `combineFrom`: at each voxel the result folds the
per-mask values at that voxel. -/
theorem combineFrom_getElem? (ms : List (List Int)) : ∀ (sIdx : Nat) (acc : List Int) (j : Nat),
    (∀ m ∈ ms, m.length = acc.length) →
    (combineFrom sIdx ms acc)[j]? =
      (acc[j]?).map (fun a => pointFold sIdx (ms.map (fun m => m.getD j 0)) a) := by
  induction ms with
  | nil =>
    intro sIdx acc j _
    simp [combineFrom, pointFold]
  | cons m rest ih =>
    intro sIdx acc j hlen
    have hm : m.length = acc.length := hlen m (List.mem_cons_self m rest)
    have hzl : (List.zipWith (fun a v => if v = 0 then a else ((sIdx : Int) + 1)) acc m).length
        = acc.length := by
      rw [List.length_zipWith, hm, Nat.min_self]
    have hlen' : ∀ m' ∈ rest,
        m'.length = (List.zipWith (fun a v => if v = 0 then a else ((sIdx : Int) + 1)) acc m).length := by
      intro m' hm'
      rw [hzl]
      exact hlen m' (List.mem_cons_of_mem m hm')
    rw [combineFrom, ih (sIdx + 1) _ j hlen']
    rcases Nat.lt_or_ge j acc.length with hj | hj
    · have hja : acc[j]? = some acc[j] := List.getElem?_eq_getElem hj
      have hjm' : j < m.length := by omega
      have hjm : m[j]? = some m[j] := List.getElem?_eq_getElem hjm'
      have hgd : m.getD j 0 = m[j] := by
        rw [List.getD_eq_getElem?_getD, hjm]; rfl
      rw [List.getElem?_zipWith', hja, hjm]
      simp [pointFold, hjm, hgd]
    · have hja : acc[j]? = none := List.getElem?_eq_none hj
      have hjm : m[j]? = none := List.getElem?_eq_none (by omega)
      rw [List.getElem?_zipWith', hja, hjm]
      simp

/-- `pointFold` returns the accumulator when every mask value is zero. -/
theorem pointFold_all_zero (vs : List Int) : ∀ (sIdx : Nat) (a : Int),
    (∀ v ∈ vs, v = 0) → pointFold sIdx vs a = a := by
  induction vs with
  | nil => intro sIdx a _; rfl
  | cons v rest ih =>
    intro sIdx a hz
    have hv : v = 0 := hz v (List.mem_cons_self v rest)
    rw [pointFold, if_pos hv]
    exact ih (sIdx + 1) a (fun v' hv' => hz v' (List.mem_cons_of_mem v hv'))

/-- `pointFold` returns `sIdx + i + 1` when the mask at position `i` holds
a non-zero value and every later mask holds zero there. -/
theorem pointFold_last_claim (vs : List Int) : ∀ (sIdx i : Nat) (v a : Int),
    vs[i]? = some v → v ≠ 0 →
    (∀ (k : Nat) (w : Int), i < k → vs[k]? = some w → w = 0) →
    pointFold sIdx vs a = (sIdx : Int) + (i : Int) + 1 := by
  induction vs with
  | nil => intro sIdx i v a hv _ _; simp at hv
  | cons v0 rest ih =>
    intro sIdx i v a hv hv0 hafter
    cases i with
    | zero =>
      have hv0v : v0 = v := by simpa using hv
      rw [pointFold, if_neg (by rw [hv0v]; exact hv0)]
      rw [pointFold_all_zero rest (sIdx + 1) _ ?_]
      · push_cast; ring
      · intro w hw
        obtain ⟨k, hk⟩ := List.mem_iff_getElem?.mp hw
        exact hafter (k + 1) w (Nat.succ_pos k) (by simpa using hk)
    | succ i' =>
      have hv' : rest[i']? = some v := by simpa using hv
      rw [pointFold]
      rw [ih (sIdx + 1) i' v _ hv' hv0 ?_]
      · push_cast; ring
      · intro k w hk hkw
        exact hafter (k + 1) w (by omega) (by simpa using hkw)

/-- The combined volume holds `i + 1` at a voxel claimed by mask `i` and
by no later mask. -/
theorem combine_claimed (masks : List (List Int)) (n i j : Nat) (m : List Int) (v : Int)
    (hn : ∀ m' ∈ masks, m'.length = n)
    (hma : masks[i]? = some m) (hv : m[j]? = some v) (hv0 : v ≠ 0)
    (hafter : ∀ (k : Nat) (m' : List Int), i < k → masks[k]? = some m' → m'.getD j 0 = 0) :
    (combine_binary_arrays masks)[j]? = some ((i : Int) + 1) := by
  cases masks with
  | nil => simp at hma
  | cons m0 mrest =>
    have hm0 : m0.length = n := hn m0 (List.mem_cons_self m0 mrest)
    have hrep : ∀ m' ∈ m0 :: mrest, m'.length = (List.replicate m0.length (0 : Int)).length := by
      intro m' hm'
      rw [List.length_replicate, hm0]
      exact hn m' hm'
    have hjm : j < m.length := by
      by_contra hjc
      rw [List.getElem?_eq_none (by omega)] at hv
      exact Option.noConfusion hv
    have hjn : j < n := by
      have := hn m (List.mem_iff_getElem?.mpr ⟨i, hma⟩)
      omega
    rw [combine_binary_arrays, combineFrom_getElem? _ 0 _ j hrep]
    have hrj : (List.replicate m0.length (0 : Int))[j]? = some 0 := by
      simp [List.getElem?_replicate]
      omega
    rw [hrj]
    have hvals : ((m0 :: mrest).map (fun m' => m'.getD j 0))[i]? = some v := by
      rw [List.getElem?_map, hma]
      simp [List.getD_eq_getElem?_getD, hv]
    rw [Option.map_some']
    rw [pointFold_last_claim _ 0 i v 0 hvals hv0 ?_]
    · simp
    · intro k w hk hkw
      rw [List.getElem?_map] at hkw
      cases hmk : (m0 :: mrest)[k]? with
      | none => rw [hmk] at hkw; simp at hkw
      | some mk =>
        rw [hmk] at hkw
        simp only [Option.map_some'] at hkw
        have := hafter k mk hk hmk
        rw [this] at hkw
        exact (Option.some_inj.mp hkw).symm

/-- The combined volume holds `0` at a voxel claimed by no mask. -/
theorem combine_unclaimed (masks : List (List Int)) (n j : Nat)
    (hn : ∀ m' ∈ masks, m'.length = n) (hne : masks ≠ []) (hj : j < n)
    (hz : ∀ m' ∈ masks, m'.getD j 0 = 0) :
    (combine_binary_arrays masks)[j]? = some 0 := by
  cases masks with
  | nil => exact absurd rfl hne
  | cons m0 mrest =>
    have hm0 : m0.length = n := hn m0 (List.mem_cons_self m0 mrest)
    have hrep : ∀ m' ∈ m0 :: mrest, m'.length = (List.replicate m0.length (0 : Int)).length := by
      intro m' hm'
      rw [List.length_replicate, hm0]
      exact hn m' hm'
    rw [combine_binary_arrays, combineFrom_getElem? _ 0 _ j hrep]
    have hrj : (List.replicate m0.length (0 : Int))[j]? = some 0 := by
      simp [List.getElem?_replicate]
      omega
    rw [hrj, Option.map_some']
    rw [pointFold_all_zero _ 0 0 ?_]
    intro w hw
    obtain ⟨m', hm', hw'⟩ := List.mem_map.mp hw
    rw [← hw']
    exact hz m' hm'

/-- Length of the combined volume. -/
theorem combine_length (masks : List (List Int)) (n : Nat)
    (hn : ∀ m' ∈ masks, m'.length = n) (hne : masks ≠ []) :
    (combine_binary_arrays masks).length = n := by
  cases masks with
  | nil => exact absurd rfl hne
  | cons m0 mrest =>
    have hm0 : m0.length = n := hn m0 (List.mem_cons_self m0 mrest)
    have hrep : ∀ m' ∈ m0 :: mrest, m'.length = (List.replicate m0.length (0 : Int)).length := by
      intro m' hm'
      rw [List.length_replicate, hm0]
      exact hn m' hm'
    rw [combine_binary_arrays, combineFrom_length _ 0 _ hrep, List.length_replicate, hm0]

/-- Looking a key up at a matching head entry. -/
theorem dictGet_cons_eq (p : String × Int) (d : List (String × Int)) (k : String)
    (h : p.1 = k) : dictGet (p :: d) k = some p.2 := by
  simp [dictGet, List.find?_cons, h]

/-- Looking a key up past a non-matching head entry. -/
theorem dictGet_cons_ne (p : String × Int) (d : List (String × Int)) (k : String)
    (h : p.1 ≠ k) : dictGet (p :: d) k = dictGet d k := by
  simp [dictGet, List.find?_cons, h]

/-- Inserting a fresh key appends it. -/
theorem dictInsert_new (d : List (String × Int)) (k : String) (v : Int)
    (h : hasKey d k = false) : dictInsert d k v = d ++ [(k, v)] := by
  simp [dictInsert, h]

/-- The quantized masks accumulated by the `read_dragonfly` loop, in label
order after the already-collected ones. -/
theorem dragonLoop_snd (folder : String → List Int) (labels : List String) :
    ∀ (d : List (String × Int)) (arrs : List (List Int)),
      (dragonLoop folder labels d arrs).2 =
        arrs ++ labels.map (fun l => (folder l).map (fun v => if v > 0 then (1 : Int) else 0)) := by
  induction labels with
  | nil => intro d arrs; simp [dragonLoop]
  | cons l rest ih =>
    intro d arrs
    rw [dragonLoop, ih]
    simp

/-- The label dictionary accumulated by the `read_dragonfly` loop on
distinct fresh labels: each label is appended with ID one past the current
dictionary size. -/
theorem dragonLoop_fst (folder : String → List Int) (labels : List String) :
    ∀ (d : List (String × Int)) (arrs : List (List Int)),
      labels.Nodup → (∀ l ∈ labels, hasKey d l = false) →
      (dragonLoop folder labels d arrs).1 = d ++ posDict d.length labels := by
  induction labels with
  | nil => intro d arrs _ _; simp [dragonLoop, posDict]
  | cons l rest ih =>
    intro d arrs hnd hnew
    have hl : hasKey d l = false := hnew l (List.mem_cons_self l rest)
    have hlnot : l ∉ rest := (List.nodup_cons.mp hnd).1
    rw [dragonLoop, dictInsert_new d l _ hl]
    have hnew' : ∀ l' ∈ rest, hasKey (d ++ [(l, (d.length : Int) + 1)]) l' = false := by
      intro l' hl'
      have h1 : hasKey d l' = false := hnew l' (List.mem_cons_of_mem l hl')
      have h2 : l ≠ l' := fun he => hlnot (he ▸ hl')
      rw [hasKey, List.any_append]
      rw [hasKey] at h1
      rw [h1]
      simp [h2]
    rw [ih _ _ (List.nodup_cons.mp hnd).2 hnew']
    simp [posDict]

/-- Position `i` of a positional dictionary on distinct labels maps to ID
`start + i + 1`. -/
theorem posDict_getElem (ls : List String) : ∀ (start i : Nat) (l : String), ls.Nodup →
    ls[i]? = some l → dictGet (posDict start ls) l = some ((start : Int) + (i : Int) + 1) := by
  induction ls with
  | nil => intro start i l _ hi; simp at hi
  | cons l0 rest ih =>
    intro start i l hnd hi
    cases i with
    | zero =>
      have h0 : l0 = l := by simpa using hi
      rw [posDict, dictGet_cons_eq _ _ _ h0]
      norm_num
    | succ i' =>
      have hi' : rest[i']? = some l := by simpa using hi
      have hmem : l ∈ rest := List.mem_iff_getElem?.mpr ⟨i', hi'⟩
      have hne : l0 ≠ l := fun he => (List.nodup_cons.mp hnd).1 (he ▸ hmem)
      rw [posDict, dictGet_cons_ne _ _ _ hne]
      rw [ih (start + 1) i' l (List.nodup_cons.mp hnd).2 hi']
      congr 1
      push_cast
      ring

/-- The keys of a positional dictionary are the labels themselves. -/
theorem posDict_keys (ls : List String) : ∀ start : Nat, dictKeys (posDict start ls) = ls := by
  induction ls with
  | nil => intro start; rfl
  | cons l rest ih =>
    intro start
    simp only [posDict, dictKeys, List.map_cons]
    exact congrArg (List.cons l) (ih (start + 1))

/-- Every label of a positional dictionary can be looked up. -/
theorem posDict_isSome (ls : List String) : ∀ (start : Nat) (k : String), k ∈ ls →
    (dictGet (posDict start ls) k).isSome = true := by
  induction ls with
  | nil => intro start k hk; simp at hk
  | cons l rest ih =>
    intro start k hk
    by_cases he : l = k
    · rw [posDict, dictGet_cons_eq _ _ _ he]
      rfl
    · have hk' : k ∈ rest := by
        cases List.mem_cons.mp hk with
        | inl h => exact absurd h.symm he
        | inr h => exact h
      rw [posDict, dictGet_cons_ne _ _ _ he]
      exact ih (start + 1) k hk'

/-- An index with a value is in range. -/
theorem getElem?_lt_length {α : Type} (l : List α) (i : Nat) (a : α)
    (h : l[i]? = some a) : i < l.length := by
  by_contra hc
  rw [List.getElem?_eq_none (by omega)] at h
  exact Option.noConfusion h

/-- C7 (spec-modelled combiner): combining ordered same-shape binary masks
with distinct names assigns IDs by position — the label at position `i`
receives ID `i + 1`, and for non-overlapping masks the combined volume
holds `i + 1` exactly where mask `i` is non-zero and `0` where no mask
claims the voxel. -/
theorem read_dragonfly_positional_ids (folder : String → List Int) (labels : List String)
    (pix : Rat) (n i j : Nat) (l : String)
    (hn : ∀ l' ∈ labels, (folder l').length = n)
    (hnn : ∀ l' ∈ labels, ∀ v ∈ folder l', 0 ≤ v)
    (hnodup : labels.Nodup)
    (hdisj : ∀ i1 : Nat, i1 < labels.length → ∀ i2 : Nat, i2 < labels.length → i1 ≠ i2 →
      ∀ jj : Nat, jj < n →
        (folder (labels.getD i1 "")).getD jj 0 = 0
          ∨ (folder (labels.getD i2 "")).getD jj 0 = 0)
    (hi : labels[i]? = some l) (hj : j < n) :
    dictGet (read_dragonfly folder labels pix).label_dict l = some ((i : Int) + 1)
    ∧ ((read_dragonfly folder labels pix).data[j]? = some ((i : Int) + 1) ↔
        (folder l).getD j 0 ≠ 0)
    ∧ ((∀ l' ∈ labels, (folder l').getD j 0 = 0) →
        (read_dragonfly folder labels pix).data[j]? = some 0) := by
  have hfst : (dragonLoop folder labels [] []).1 = posDict 0 labels := by
    simpa using dragonLoop_fst folder labels [] [] hnodup (fun l' _ => rfl)
  have hsnd : (dragonLoop folder labels [] []).2 =
      labels.map (fun l' => (folder l').map (fun v => if v > 0 then (1 : Int) else 0)) := by
    simpa using dragonLoop_snd folder labels [] []
  have hld : (read_dragonfly folder labels pix).label_dict = posDict 0 labels := hfst
  have hdd : (read_dragonfly folder labels pix).data =
      combine_binary_arrays
        (labels.map (fun l' => (folder l').map (fun v => if v > 0 then (1 : Int) else 0))) := by
    rw [show (read_dragonfly folder labels pix).data
        = combine_binary_arrays (dragonLoop folder labels [] []).2 from rfl, hsnd]
  have hmlen : ∀ m' ∈ labels.map
      (fun l' => (folder l').map (fun v => if v > 0 then (1 : Int) else 0)), m'.length = n := by
    intro m' hm'
    obtain ⟨l', hl', rfl⟩ := List.mem_map.mp hm'
    rw [List.length_map]
    exact hn l' hl'
  have hjlen : ∀ l' ∈ labels, j < (folder l').length := by
    intro l' hl'
    rw [hn l' hl']
    exact hj
  have hgds : ∀ l' ∈ labels, (folder l')[j]? = some ((folder l').getD j 0) := by
    intro l' hl'
    rw [List.getD_eq_getElem?_getD, List.getElem?_eq_getElem (hjlen l' hl')]
    rfl
  have hqmj : ∀ l' ∈ labels,
      ((folder l').map (fun v => if v > 0 then (1 : Int) else 0))[j]? =
        some (if (folder l').getD j 0 > 0 then (1 : Int) else 0) := by
    intro l' hl'
    rw [List.getElem?_map, hgds l' hl', Option.map_some']
  have hqmgd : ∀ l' ∈ labels,
      ((folder l').map (fun v => if v > 0 then (1 : Int) else 0)).getD j 0 =
        (if (folder l').getD j 0 > 0 then (1 : Int) else 0) := by
    intro l' hl'
    rw [List.getD_eq_getElem?_getD, hqmj l' hl']
    rfl
  have hne0 : ∀ l' ∈ labels, 0 ≤ (folder l').getD j 0 := by
    intro l' hl'
    exact hnn l' hl' _ (List.getElem?_mem (hgds l' hl'))
  have hclaim : ∀ (i2 : Nat) (l2 : String), labels[i2]? = some l2 →
      (folder l2).getD j 0 ≠ 0 →
      (read_dragonfly folder labels pix).data[j]? = some ((i2 : Int) + 1) := by
    intro i2 l2 hi2 hnz
    have hl2 : l2 ∈ labels := List.mem_iff_getElem?.mpr ⟨i2, hi2⟩
    have hpos2 : (folder l2).getD j 0 > 0 := lt_of_le_of_ne (hne0 l2 hl2) (Ne.symm hnz)
    rw [hdd]
    apply combine_claimed _ n i2 j
      ((folder l2).map (fun v => if v > 0 then (1 : Int) else 0)) 1 hmlen ?hma ?hv ?hv0 ?hafter
    case hma => rw [List.getElem?_map, hi2, Option.map_some']
    case hv => rw [hqmj l2 hl2, if_pos hpos2]
    case hv0 => norm_num
    case hafter =>
      intro k m' hk hkm
      rw [List.getElem?_map] at hkm
      cases hlk : labels[k]? with
      | none => rw [hlk] at hkm; exact Option.noConfusion hkm
      | some lk =>
        rw [hlk, Option.map_some'] at hkm
        have hmeq : m' = (folder lk).map (fun v => if v > 0 then (1 : Int) else 0) :=
          (Option.some_inj.mp hkm).symm
        have hlkmem : lk ∈ labels := List.mem_iff_getElem?.mpr ⟨k, hlk⟩
        rw [hmeq, hqmgd lk hlkmem]
        have hi2l : i2 < labels.length := getElem?_lt_length labels i2 l2 hi2
        have hkl : k < labels.length := getElem?_lt_length labels k lk hlk
        have hgd2 : labels.getD i2 "" = l2 := by
          rw [List.getD_eq_getElem?_getD, hi2]
          rfl
        have hgdk : labels.getD k "" = lk := by
          rw [List.getD_eq_getElem?_getD, hlk]
          rfl
        have hdis := hdisj i2 hi2l k hkl (by omega) j hj
        rw [hgd2, hgdk] at hdis
        rcases hdis with hz | hz
        · exact absurd hz hnz
        · rw [hz]
          norm_num
  have hunclaim : (∀ l' ∈ labels, (folder l').getD j 0 = 0) →
      (read_dragonfly folder labels pix).data[j]? = some 0 := by
    intro hz
    rw [hdd]
    apply combine_unclaimed _ n j hmlen ?hne hj ?hz
    case hne =>
      intro hmape
      rw [List.map_eq_nil_iff] at hmape
      rw [hmape] at hi
      simp at hi
    case hz =>
      intro m' hm'
      obtain ⟨l', hl', rfl⟩ := List.mem_map.mp hm'
      rw [hqmgd l' hl', hz l' hl']
      norm_num
  refine ⟨?_, ?_, ?_⟩
  · rw [hld]
    simpa using posDict_getElem labels 0 i l hnodup hi
  · constructor
    · intro hdata
      by_contra hz0
      by_cases hex : ∃ i2 : Nat, ∃ l2 : String,
          labels[i2]? = some l2 ∧ (folder l2).getD j 0 ≠ 0
      · obtain ⟨i2, l2, hi2, hnz2⟩ := hex
        have hc2 := hclaim i2 l2 hi2 hnz2
        rw [hdata] at hc2
        have hii : i = i2 := by
          have hinj := Option.some_inj.mp hc2
          omega
        have hl12 : l = l2 := by
          rw [hii] at hi
          rw [hi] at hi2
          exact Option.some_inj.mp hi2
        rw [hl12] at hz0
        exact hnz2 hz0
      · push_neg at hex
        have hz : ∀ l' ∈ labels, (folder l').getD j 0 = 0 := by
          intro l' hl'
          obtain ⟨i', hi'⟩ := List.mem_iff_getElem?.mp hl'
          exact hex i' l' hi'
        have hu := hunclaim hz
        rw [hdata] at hu
        have hinj := Option.some_inj.mp hu
        omega
    · intro hnz
      exact hclaim i l hi hnz
  · exact hunclaim

/-- `get_binary_array` on a present label. -/
theorem get_binary_array_ok (s : Segmentation) (k : String) (lid : Int)
    (h : dictGet s.label_dict k = some lid) :
    Segmentation.get_binary_array s k =
      Except.ok (s.data.map (fun v => if v = lid then (1 : Int) else 0)) := by
  unfold Segmentation.get_binary_array
  simp [tupleTruthy, h]

/-- The files produced by the `write_dragonfly` loop when every key can be
looked up: one scaled binary mask per key, in key order. -/
theorem writeLoop_ok (s : Segmentation) (ks : List String)
    (h : ∀ k ∈ ks, (dictGet s.label_dict k).isSome = true) :
    writeLoop s ks = Except.ok (ks.map (fun k =>
      (k, (s.data.map (fun v => if v = (dictGet s.label_dict k).getD 0 then (1 : Int) else 0)).map
        (fun v => v * 255)))) := by
  induction ks with
  | nil => rfl
  | cons k rest ih =>
    have hk := h k (List.mem_cons_self k rest)
    obtain ⟨lid, hlid⟩ := Option.isSome_iff_exists.mp hk
    rw [writeLoop, get_binary_array_ok s k lid hlid,
      ih (fun k' hk' => h k' (List.mem_cons_of_mem k hk'))]
    simp [hlid]

/-- Reading back a file written for a label returns that label's mask. -/
theorem fileFun_map (ls : List String) (g : String → List Int) (l : String) :
    l ∈ ls → fileFun (ls.map (fun k => (k, g k))) l = g l := by
  induction ls with
  | nil => intro h; simp at h
  | cons k rest ih =>
    intro h
    by_cases he : k = l
    · subst he
      simp [fileFun, List.find?_cons]
    · have h' : l ∈ rest := by
        cases List.mem_cons.mp h with
        | inl hh => exact absurd hh.symm he
        | inr hh => exact hh
      simpa [fileFun, List.find?_cons, he] using ih h'

/-- C8: mask-folder round trip.  For a segmentation whose label dictionary
is the positional one a mask-folder read produces (as after combining
non-overlapping source masks) and whose voxel values respect the data
model (between `0` and the label count), writing with `write_dragonfly`
and reading the folder back with `read_dragonfly` under the same ordered
label names reproduces the label dictionary and the volume exactly — in
particular, for every label, the same set of foreground voxels. -/
theorem dragonfly_roundtrip (labels : List String) (s : Segmentation) (pix : Rat)
    (files : List (String × List Int))
    (hld : s.label_dict = posDict 0 labels)
    (hnodup : labels.Nodup)
    (hne : labels ≠ [])
    (hvals : ∀ v ∈ s.data, 0 ≤ v ∧ v ≤ (labels.length : Int))
    (hw : Segmentation.write_dragonfly s = Except.ok files) :
    (read_dragonfly (fileFun files) labels pix).label_dict = s.label_dict
    ∧ (read_dragonfly (fileFun files) labels pix).data = s.data := by
  have hkeys : dictKeys s.label_dict = labels := by
    rw [hld]
    exact posDict_keys labels 0
  have hks : ∀ k ∈ dictKeys s.label_dict, (dictGet s.label_dict k).isSome = true := by
    intro k hk
    rw [hld]
    rw [hkeys] at hk
    exact posDict_isSome labels 0 k hk
  have hwl := writeLoop_ok s (dictKeys s.label_dict) hks
  rw [hkeys] at hwl
  rw [Segmentation.write_dragonfly, hkeys, hwl] at hw
  injection hw with hfe
  subst hfe
  have hid : ∀ (i2 : Nat) (l2 : String), labels[i2]? = some l2 →
      (dictGet s.label_dict l2).getD 0 = (i2 : Int) + 1 := by
    intro i2 l2 h2
    rw [hld, posDict_getElem labels 0 i2 l2 hnodup h2]
    simp
  have hfst : (dragonLoop (fileFun (labels.map (fun k =>
      (k, (s.data.map (fun v => if v = (dictGet s.label_dict k).getD 0 then (1 : Int) else 0)).map
        (fun v => v * 255))))) labels [] []).1 = posDict 0 labels := by
    simpa using dragonLoop_fst _ labels [] [] hnodup (fun l' _ => rfl)
  have hsnd := dragonLoop_snd (fileFun (labels.map (fun k =>
      (k, (s.data.map (fun v => if v = (dictGet s.label_dict k).getD 0 then (1 : Int) else 0)).map
        (fun v => v * 255))))) labels [] []
  have hqm : ∀ l2 ∈ labels,
      (fileFun (labels.map (fun k =>
        (k, (s.data.map (fun v => if v = (dictGet s.label_dict k).getD 0 then (1 : Int) else 0)).map
          (fun v => v * 255)))) l2).map (fun v => if v > 0 then (1 : Int) else 0)
      = s.data.map (fun v => if v = (dictGet s.label_dict l2).getD 0 then (1 : Int) else 0) := by
    intro l2 hl2
    rw [fileFun_map labels _ l2 hl2]
    rw [List.map_map, List.map_map]
    congr 1
    funext v
    by_cases hv : v = (dictGet s.label_dict l2).getD 0 <;> simp [hv, Function.comp]
  have hsnd' : (dragonLoop (fileFun (labels.map (fun k =>
      (k, (s.data.map (fun v => if v = (dictGet s.label_dict k).getD 0 then (1 : Int) else 0)).map
        (fun v => v * 255))))) labels [] []).2 =
      labels.map (fun l2 =>
        s.data.map (fun v => if v = (dictGet s.label_dict l2).getD 0 then (1 : Int) else 0)) := by
    rw [hsnd]
    simp only [List.nil_append]
    exact List.map_congr_left hqm
  constructor
  · exact hfst.trans hld.symm
  · rw [show (read_dragonfly (fileFun (labels.map (fun k =>
        (k, (s.data.map (fun v => if v = (dictGet s.label_dict k).getD 0 then (1 : Int) else 0)).map
          (fun v => v * 255))))) labels pix).data
      = combine_binary_arrays ((dragonLoop (fileFun (labels.map (fun k =>
        (k, (s.data.map (fun v => if v = (dictGet s.label_dict k).getD 0 then (1 : Int) else 0)).map
          (fun v => v * 255))))) labels [] []).2) from rfl, hsnd']
    have hmlenS : ∀ m' ∈ labels.map (fun l2 =>
        s.data.map (fun v => if v = (dictGet s.label_dict l2).getD 0 then (1 : Int) else 0)),
        m'.length = s.data.length := by
      intro m' hm'
      obtain ⟨l2, hl2, rfl⟩ := List.mem_map.mp hm'
      exact List.length_map s.data _
    have hneS : labels.map (fun l2 =>
        s.data.map (fun v => if v = (dictGet s.label_dict l2).getD 0 then (1 : Int) else 0)) ≠ [] := by
      intro hmape
      rw [List.map_eq_nil_iff] at hmape
      exact hne hmape
    have hmv : ∀ (i2 : Nat) (l2 : String), labels[i2]? = some l2 → ∀ jj : Nat,
        jj < s.data.length →
        (s.data.map (fun v => if v = (dictGet s.label_dict l2).getD 0 then (1 : Int) else 0)).getD jj 0
          = if s.data.getD jj 0 = (i2 : Int) + 1 then 1 else 0 := by
      intro i2 l2 h2 jj hjj
      rw [hid i2 l2 h2]
      rw [List.getD_eq_getElem?_getD, List.getElem?_map, List.getElem?_eq_getElem hjj]
      rw [List.getD_eq_getElem?_getD, List.getElem?_eq_getElem hjj]
      rfl
    apply List.ext_getElem?
    intro j
    rcases Nat.lt_or_ge j s.data.length with hj | hj
    · have hwj : s.data[j]? = some (s.data.getD j 0) := by
        rw [List.getD_eq_getElem?_getD, List.getElem?_eq_getElem hj]
        rfl
      have hwmem : s.data.getD j 0 ∈ s.data := List.getElem?_mem hwj
      have hwb := hvals _ hwmem
      by_cases hw0 : s.data.getD j 0 = 0
      · rw [hwj, hw0]
        apply combine_unclaimed _ s.data.length j hmlenS hneS hj
        intro m' hm'
        obtain ⟨i2, hi2m⟩ := List.mem_iff_getElem?.mp hm'
        rw [List.getElem?_map] at hi2m
        cases hlk : labels[i2]? with
        | none => rw [hlk] at hi2m; exact Option.noConfusion hi2m
        | some l2 =>
          rw [hlk, Option.map_some'] at hi2m
          rw [← Option.some_inj.mp hi2m]
          rw [hmv i2 l2 hlk j hj, hw0]
          have : ((i2 : Int) + 1) ≠ 0 := by omega
          simp [Ne.symm this]
      · have hw1 : 1 ≤ s.data.getD j 0 := by
          rcases hwb with ⟨h0, _⟩
          omega
        have hi2lt : ((s.data.getD j 0) - 1).toNat < labels.length := by
          rcases hwb with ⟨_, hk⟩
          omega
        have hl2 : labels[((s.data.getD j 0) - 1).toNat]? =
            some labels[((s.data.getD j 0) - 1).toNat] := List.getElem?_eq_getElem hi2lt
        have hii : (((s.data.getD j 0) - 1).toNat : Int) + 1 = s.data.getD j 0 := by
          omega
        have hsj : s.data[j] = s.data.getD j 0 := by
          rw [List.getD_eq_getElem?_getD, List.getElem?_eq_getElem hj]
          rfl
        have hcc : (combine_binary_arrays (labels.map (fun l2 =>
            s.data.map (fun v => if v = (dictGet s.label_dict l2).getD 0 then (1 : Int) else 0))))[j]?
            = some ((((s.data.getD j 0) - 1).toNat : Int) + 1) := by
          apply combine_claimed _ s.data.length ((s.data.getD j 0) - 1).toNat j _ 1 hmlenS
            ?hma ?hv ?hv0 ?hafter
          case hma => rw [List.getElem?_map, hl2, Option.map_some']
          case hv =>
            rw [List.getElem?_map, List.getElem?_eq_getElem hj, Option.map_some']
            congr 1
            rw [hid _ _ hl2]
            rw [if_pos (by rw [hsj]; omega)]
          case hv0 => norm_num
          case hafter =>
            intro k m' hk hkm
            rw [List.getElem?_map] at hkm
            cases hlk : labels[k]? with
            | none => rw [hlk] at hkm; exact Option.noConfusion hkm
            | some lk =>
              rw [hlk, Option.map_some'] at hkm
              rw [← Option.some_inj.mp hkm]
              rw [hmv k lk hlk j hj]
              have hneid : ¬(s.data.getD j 0 = (k : Int) + 1) := by
                omega
              rw [if_neg hneid]
        rw [hwj, hcc]
        congr 1
    · have h1 : (combine_binary_arrays (labels.map (fun l2 =>
          s.data.map (fun v => if v = (dictGet s.label_dict l2).getD 0 then (1 : Int) else 0))))[j]?
          = none := by
        apply List.getElem?_eq_none
        rw [combine_length _ s.data.length hmlenS hneS]
        omega
      rw [h1, List.getElem?_eq_none hj]

/-- Witness for C7 at the spec scenario: the 32-voxel folder `folderC7`
with non-overlapping masks "a" (top half) and "b" (bottom half), evaluated
at label "a" (position 0) and voxel 0. -/
theorem read_dragonfly_positional_ids_witness :
    dictGet (read_dragonfly folderC7 ["a", "b"] 1).label_dict "a" = some 1
    ∧ (read_dragonfly folderC7 ["a", "b"] 1).data[0]? = some 1 := by
  have h := read_dragonfly_positional_ids folderC7 ["a", "b"] 1 32 0 0 "a"
    (by decide) (by decide) (by decide) (by decide) (by decide) (by decide)
  exact ⟨h.1, (h.2.1).mpr (by decide)⟩

/-- Witness for C8 at `segC8` (labels "a", "b", volume `[1, 1, 2, 0]`):
the write produces `filesC8` and the read-back reproduces the label
dictionary and the volume. -/
theorem dragonfly_roundtrip_witness :
    segC8.label_dict = posDict 0 ["a", "b"]
    ∧ Segmentation.write_dragonfly segC8 = Except.ok filesC8
    ∧ (read_dragonfly (fileFun filesC8) ["a", "b"] 1).label_dict = segC8.label_dict
    ∧ (read_dragonfly (fileFun filesC8) ["a", "b"] 1).data = segC8.data := by
  have h := dragonfly_roundtrip ["a", "b"] segC8 1 filesC8
    (by decide) (by decide) (by decide) (by decide) rfl
  exact ⟨by decide, rfl, h.1, h.2⟩
